import Mathlib

/-!
Verification development for the core work-stealing thread pool
(`src/thread_pool.rs`): registry state and operations, per-worker deque
discipline, and an interleaved small-step model of the whole pool.

Jobs are modelled as trees: executing a job may push its children onto the
executing worker's local deque (this is how fork/join and scoped spawns
interact with the scheduler; the `JobRef` payload itself is opaque).
-/

/-- A job handle. `Job.mk cs` is a job that, when executed with mode
`Execute`, pushes the jobs `cs` (in order) onto the executing worker's
local deque. The payload itself is opaque to the scheduler. -/
inductive Job : Type
  | mk : List Job → Job

/-- The jobs a job pushes onto the local deque while it executes. -/
def Job.children : Job → List Job
  | .mk cs => cs

mutual

/-- Decidable equality of job handles. -/
def Job.decEq : (a b : Job) → Decidable (a = b)
  | .mk as, .mk bs =>
    match Job.decEqList as bs with
    | isTrue h => isTrue (by rw [h])
    | isFalse h => isFalse (fun hc => h (by cases hc; rfl))

/-- Decidable equality of lists of job handles. -/
def Job.decEqList : (as bs : List Job) → Decidable (as = bs)
  | [], [] => isTrue rfl
  | [], _ :: _ => isFalse (fun hc => List.noConfusion hc)
  | _ :: _, [] => isFalse (fun hc => List.noConfusion hc)
  | a :: as, b :: bs =>
    match Job.decEq a b, Job.decEqList as bs with
    | isTrue h1, isTrue h2 => isTrue (by rw [h1, h2])
    | isFalse h1, _ => isFalse (fun hc => List.noConfusion hc (fun h _ => h1 h))
    | isTrue _, isFalse h2 => isFalse (fun hc => List.noConfusion hc (fun _ h => h2 h))

end

instance : DecidableEq Job := Job.decEq

mutual

/-- The number of jobs in a job tree: the job itself plus, recursively,
every job its execution spawns. -/
def Job.size : Job → Nat
  | .mk cs => 1 + Job.sizeList cs

/-- Total size of a list of job trees. -/
def Job.sizeList : List Job → Nat
  | [] => 0
  | j :: js => Job.size j + Job.sizeList js

end

theorem Job.sizeList_append (l1 l2 : List Job) :
    Job.sizeList (l1 ++ l2) = Job.sizeList l1 + Job.sizeList l2 := by
  induction l1 with
  | nil => simp [Job.sizeList]
  | cons j js ih => simp [Job.sizeList, ih]; omega

theorem Job.sizeList_reverse (l : List Job) :
    Job.sizeList l.reverse = Job.sizeList l := by
  induction l with
  | nil => rfl
  | cons j js ih =>
      rw [List.reverse_cons, Job.sizeList_append]
      simp [Job.sizeList, ih]
      omega

theorem Job.size_children (j : Job) : Job.sizeList j.children + 1 = Job.size j := by
  cases j
  simp [Job.size, Job.children]
  omega

/-- `RegistryState` from the source: the mutex-guarded part of the registry. -/
structure RegistryState where
  terminate : Bool
  threads_at_work : Nat
  injected_jobs : List Job

/-- The result of `wait_for_work` in the source (`enum Work`). -/
inductive Work : Type
  | none
  | job (j : Job)
  | terminate

namespace Registry

/-- `Registry::start_working`: increment `threads_at_work`, notify all
waiters. The returned boolean records that all waiters were notified. -/
def start_working (r : RegistryState) : RegistryState × Bool :=
  ({ r with threads_at_work := r.threads_at_work + 1 }, true)

/-- `Registry::inject`: assert `!terminate` (modelled as returning `none`
on assertion failure, with the state untouched), append the jobs to the
back of `injected_jobs`, notify all waiters. -/
def inject (jobs : List Job) (r : RegistryState) : Option (RegistryState × Bool) :=
  if r.terminate then Option.none
  else Option.some ({ r with injected_jobs := r.injected_jobs ++ jobs }, true)

/-- `Registry::terminate`: set the flag, drain `injected_jobs` (each
drained job receives exactly one `execute(Abort)` call, returned here as
the middle component, in drain order), notify all waiters. -/
def terminate (r : RegistryState) : RegistryState × List Job × Bool :=
  ({ terminate := true,
     threads_at_work := r.threads_at_work,
     injected_jobs := [] },
   r.injected_jobs, true)

/-- The decrement performed on entry to `wait_for_work` when
`was_active` holds. -/
def decIf (r : RegistryState) (was_active : Bool) : RegistryState :=
  if was_active then { r with threads_at_work := r.threads_at_work - 1 } else r

/-- One pass of the `loop` inside `Registry::wait_for_work`, on the state
currently observed under the mutex: terminate check first, then injected
jobs (popping the front, incrementing `threads_at_work` and notifying
all), then the spin-up check `threads_at_work > 0`. The result `none`
means the condvar wait is taken (the loop re-checks on a later state).
The boolean records whether all waiters were notified. -/
def waitCheck (r : RegistryState) : Option (Work × RegistryState × Bool) :=
  if r.terminate then Option.some (Work.terminate, r, false)
  else
    match r.injected_jobs with
    | j :: rest =>
        Option.some (Work.job j,
          { terminate := r.terminate,
            threads_at_work := r.threads_at_work + 1,
            injected_jobs := rest }, true)
    | [] =>
        if 0 < r.threads_at_work then Option.some (Work.none, r, false)
        else Option.none

/-- `Registry::wait_for_work`: decrement `threads_at_work` if
`was_active`, then run the check loop. -/
def wait_for_work (r : RegistryState) (was_active : Bool) :
    Option (Work × RegistryState × Bool) :=
  waitCheck (decIf r was_active)

end Registry

/-- The owner-visible state of a `WorkerThread`: its spawn counter and the
current content of its local deque. The list's head is the owner end
(bottom): `push`/`pop` act on the head, thieves steal from the last
element (top). -/
structure WorkerThread where
  spawn_count : Nat
  deque : List Job

namespace WorkerThread

/-- `WorkerThread::pop`: if `spawn_count > 0`, attempt the deque pop;
on success decrement the counter, on an empty deque reset the counter to
0; if `spawn_count == 0`, return `none` without touching the deque. -/
def pop (w : WorkerThread) : Option Job × WorkerThread :=
  if 0 < w.spawn_count then
    match w.deque with
    | j :: rest => (Option.some j, { spawn_count := w.spawn_count - 1, deque := rest })
    | [] => (Option.none, { w with spawn_count := 0 })
  else (Option.none, w)

/-- `WorkerThread::push`: bump the spawn counter and push onto the owner
end of the deque. -/
def push (j : Job) (w : WorkerThread) : WorkerThread :=
  { spawn_count := w.spawn_count + 1, deque := j :: w.deque }

/-- A successful `pop` comes from the positive-counter branch and
decrements the counter by one. -/
theorem pop_some_spawn {w : WorkerThread} {j : Job} {w' : WorkerThread}
    (hp : pop w = (Option.some j, w')) :
    w'.spawn_count = w.spawn_count - 1 ∧ 0 < w.spawn_count := by
  unfold pop at hp
  by_cases h : 0 < w.spawn_count
  · rw [if_pos h] at hp
    cases hd : w.deque with
    | nil => rw [hd] at hp; simp at hp
    | cons a t =>
        rw [hd] at hp
        refine ⟨?_, h⟩
        have hw : { spawn_count := w.spawn_count - 1, deque := t } = w' := by
          have := congrArg Prod.snd hp
          simpa using this
        rw [← hw]
  · rw [if_neg h] at hp
    simp at hp

/-- The effect of `job.execute(JobMode::Execute)` on the executing
worker's own state: higher-level primitives (join, scope, spawn)
re-enter `WorkerThread::push` from inside the running job, so executing
a job pushes its children, in order, onto the local deque. -/
def executeJob (j : Job) (w : WorkerThread) : WorkerThread :=
  j.children.foldl (fun acc c => push c acc) w

/-- Folding `push` over a list of jobs prepends them reversed and bumps
the spawn counter by their number. -/
theorem foldl_push_spec (cs : List Job) (w : WorkerThread) :
    (cs.foldl (fun acc c => push c acc) w).deque = cs.reverse ++ w.deque ∧
    (cs.foldl (fun acc c => push c acc) w).spawn_count = w.spawn_count + cs.length := by
  induction cs generalizing w with
  | nil => simp
  | cons c cs ih =>
      have h := ih (push c w)
      constructor
      · rw [List.foldl_cons, h.1]
        simp [push]
      · rw [List.foldl_cons, h.2]
        simp [push]
        omega

/-- Executing a job pushes exactly its children onto the local deque. -/
theorem executeJob_deque (j : Job) (w : WorkerThread) :
    (executeJob j w).deque = j.children.reverse ++ w.deque :=
  (foldl_push_spec j.children w).1

/-- A successful `pop` removes exactly the owner-end job. -/
theorem pop_some_deque {w : WorkerThread} {j : Job} {w' : WorkerThread}
    (hp : pop w = (Option.some j, w')) : w.deque = j :: w'.deque := by
  unfold pop at hp
  by_cases h : 0 < w.spawn_count
  · rw [if_pos h] at hp
    cases hd : w.deque with
    | nil => rw [hd] at hp; simp at hp
    | cons a t =>
        rw [hd] at hp
        injection hp with h1 h2
        injection h1 with h1
        rw [h1, ← h2]
  · rw [if_neg h] at hp
    simp at hp

/-- Popping a job and executing it strictly shrinks the total size of
the job trees held in the local deque: the popped root is gone, only its
children remain. -/
theorem executeJob_measure {w : WorkerThread} {j : Job} {w' : WorkerThread}
    (hp : pop w = (Option.some j, w')) :
    Job.sizeList (executeJob j w').deque < Job.sizeList w.deque := by
  rw [executeJob_deque, pop_some_deque hp]
  rw [Job.sizeList_append, Job.sizeList_reverse]
  have h := Job.size_children j
  simp [Job.sizeList]
  omega

/-- `WorkerThread::pop_spawned_jobs`: while `spawn_count > start_count`,
pop one job and execute it with `Execute` — which pushes the job's
children onto the local deque and raises the spawn counter mid-loop;
stop when the condition fails or `pop` returns `none`. Returns the
final worker state and the list of jobs executed, in execution order. -/
def pop_spawned_jobs (w : WorkerThread) (start_count : Nat) : WorkerThread × List Job :=
  if start_count < w.spawn_count then
    match hp : pop w with
    | (Option.some j, w') =>
        let r := pop_spawned_jobs (executeJob j w') start_count
        (r.1, j :: r.2)
    | (Option.none, w') => (w', [])
  else (w, [])
termination_by Job.sizeList w.deque
decreasing_by
  exact executeJob_measure hp

/-- The three possible answers of a stealer (`enum Stolen` of the deque
crate): the deque was observed empty, a race was lost, or a job was
stolen. -/
inductive Stolen : Type
  | empty
  | abort
  | data (j : Job)

/-- The `filter_map` body of the steal sweep: keep only `Data` results. -/
def stolenJob : Stolen → Option Job
  | .data j => Option.some j
  | .empty => Option.none
  | .abort => Option.none

/-- `WorkerThread::pop_or_steal`: first the local `pop`; else, if the
stealer snapshot is empty, `none`; else draw `start = r % N`, split the
snapshot at `start` and sweep `hi ++ lo` for the first `Data`. The
snapshot is modelled by the answers `stealers` each sibling would give on
this pass, and the rng draw by `r`. -/
def pop_or_steal (w : WorkerThread) (stealers : List Stolen) (r : Nat) :
    Option Job × WorkerThread :=
  match pop w with
  | (Option.some j, w') => (Option.some j, w')
  | (Option.none, w') =>
      if stealers.isEmpty then (Option.none, w')
      else
        let start := r % stealers.length
        let lo := stealers.take start
        let hi := stealers.drop start
        ((hi ++ lo).findSome? stolenJob, w')

end WorkerThread

/-- One iteration's environment observation inside `steal_until`: the
value the latch probe reads at the top of the loop, and the job (if any)
that this iteration's `pop_or_steal` sweep obtains. -/
structure StealIter where
  probe : Bool
  sweep : Option Job

/-- The externally visible actions of the `steal_until` loop body. -/
inductive StealEv : Type
  | exec (j : Job)
  | yieldNow

/-- The action of one non-returning iteration: execute the obtained job,
or yield the OS thread when the sweep obtained nothing. -/
def stealEvOf (it : StealIter) : StealEv :=
  match it.sweep with
  | Option.some j => StealEv.exec j
  | Option.none => StealEv.yieldNow

/-- `WorkerThread::steal_until`, run against a finite list of iteration
observations: probe the latch; if set, return (with the trace of actions
performed so far); else perform one `pop_or_steal_and_execute` and, if it
obtained nothing, yield once; then loop. `none` means the observations
ran out with the loop still running (the latch was never observed set). -/
def steal_until : List StealIter → Option (List StealEv)
  | [] => Option.none
  | it :: rest =>
      if it.probe then Option.some []
      else (steal_until rest).map (fun tr => stealEvOf it :: tr)

/-!
## Interleaved small-step model of the whole pool

One `PoolState` holds the registry, every worker's control point in
`main_loop`, and ghost logs of the jobs injected, spawned, executed and
aborted so far. A worker's `credit` is the ghost difference between the
`threads_at_work` increments it has performed and the decrements it has
performed.
-/

/-- Where a worker stands in `main_loop`: about to call
`wait_for_work index was_active`; inside `wait_for_work`'s check loop
having already performed the entry decrement and now asleep on the
condition variable (re-checking on wakeup, with no further decrement);
inside the inner `while let Some(job) = pop_or_steal()` drain loop
(`drained` records whether this spin has executed at least one job,
i.e. the value `was_active` will have on exit); or exited on
`Terminate`. -/
inductive Phase : Type
  | parked (was_active : Bool)
  | waiting
  | draining (drained : Bool)
  | done

/-- Per-worker state in the pool model. -/
structure WorkerSt where
  phase : Phase
  spawn_count : Nat
  deque : List Job
  credit : Nat

/-- Global pool state: registry plus workers plus ghost logs. -/
structure PoolState where
  reg : RegistryState
  workers : List WorkerSt
  executed : List Job
  injectedLog : List Job
  spawnedLog : List Job
  abortedLog : List Job

/-- A worker thread at startup: parked with `was_active = false`, empty
deque, zero spawn count. -/
def initWorker : WorkerSt :=
  { phase := Phase.parked false, spawn_count := 0, deque := [], credit := 0 }

/-- A freshly constructed pool of `n` workers. -/
def initPool (n : Nat) : PoolState :=
  { reg := { terminate := false, threads_at_work := 0, injected_jobs := [] },
    workers := List.replicate n initWorker,
    executed := [], injectedLog := [], spawnedLog := [], abortedLog := [] }

/-- `pop` on worker-local state `w` returns `none` (the enabling condition
for the steal sweep and for leaving the drain loop). On such a failed pop
the source resets `spawn_count` to 0. -/
def popFails (w : WorkerSt) : Prop :=
  w.spawn_count = 0 ∨ w.deque = []

/-- One interleaved step of the pool: an external `inject` or
`terminate` call, or one worker advancing through `main_loop`. Executing
a job pushes its children onto the executing worker's deque (head =
owner end; thieves steal the last element). -/
inductive Step : PoolState → PoolState → Prop
  | inject (p : PoolState) (jobs : List Job)
      (h : p.reg.terminate = false) :
      Step p { p with
        reg := { p.reg with injected_jobs := p.reg.injected_jobs ++ jobs },
        injectedLog := p.injectedLog ++ jobs }
  | termCall (p : PoolState) :
      Step p { p with
        reg := { terminate := true,
                 threads_at_work := p.reg.threads_at_work,
                 injected_jobs := [] },
        abortedLog := p.abortedLog ++ p.reg.injected_jobs }
  | waitTerminate (p : PoolState) (i : Nat) (w : WorkerSt) (wa : Bool)
      (hw : p.workers[i]? = Option.some w)
      (hp : w.phase = Phase.parked wa)
      (ht : p.reg.terminate = true) :
      Step p { p with
        reg := Registry.decIf p.reg wa,
        workers := p.workers.set i
          { w with phase := Phase.done,
                   credit := w.credit - (if wa then 1 else 0) } }
  | waitJob (p : PoolState) (i : Nat) (w : WorkerSt) (wa : Bool)
      (j : Job) (rest : List Job)
      (hw : p.workers[i]? = Option.some w)
      (hp : w.phase = Phase.parked wa)
      (ht : p.reg.terminate = false)
      (hj : p.reg.injected_jobs = j :: rest) :
      Step p
        { reg := { terminate := false,
                   threads_at_work := (Registry.decIf p.reg wa).threads_at_work + 1,
                   injected_jobs := rest },
          workers := p.workers.set i
            { phase := Phase.parked true,
              spawn_count := w.spawn_count + j.children.length,
              deque := j.children.reverse ++ w.deque,
              credit := w.credit - (if wa then 1 else 0) + 1 },
          executed := p.executed ++ [j],
          injectedLog := p.injectedLog,
          spawnedLog := p.spawnedLog ++ j.children,
          abortedLog := p.abortedLog }
  | waitNone (p : PoolState) (i : Nat) (w : WorkerSt) (wa : Bool)
      (hw : p.workers[i]? = Option.some w)
      (hp : w.phase = Phase.parked wa)
      (ht : p.reg.terminate = false)
      (hj : p.reg.injected_jobs = [])
      (hta : 0 < (Registry.decIf p.reg wa).threads_at_work) :
      Step p { p with
        reg := Registry.decIf p.reg wa,
        workers := p.workers.set i
          { w with phase := Phase.draining false,
                   credit := w.credit - (if wa then 1 else 0) } }
  | waitSleep (p : PoolState) (i : Nat) (w : WorkerSt) (wa : Bool)
      (hw : p.workers[i]? = Option.some w)
      (hp : w.phase = Phase.parked wa)
      (ht : p.reg.terminate = false)
      (hj : p.reg.injected_jobs = [])
      (hta : (Registry.decIf p.reg wa).threads_at_work = 0) :
      Step p { p with
        reg := Registry.decIf p.reg wa,
        workers := p.workers.set i
          { w with phase := Phase.waiting,
                   credit := w.credit - (if wa then 1 else 0) } }
  | wakeTerminate (p : PoolState) (i : Nat) (w : WorkerSt)
      (hw : p.workers[i]? = Option.some w)
      (hp : w.phase = Phase.waiting)
      (ht : p.reg.terminate = true) :
      Step p { p with
        workers := p.workers.set i { w with phase := Phase.done } }
  | wakeJob (p : PoolState) (i : Nat) (w : WorkerSt) (j : Job) (rest : List Job)
      (hw : p.workers[i]? = Option.some w)
      (hp : w.phase = Phase.waiting)
      (ht : p.reg.terminate = false)
      (hj : p.reg.injected_jobs = j :: rest) :
      Step p
        { reg := { terminate := false,
                   threads_at_work := p.reg.threads_at_work + 1,
                   injected_jobs := rest },
          workers := p.workers.set i
            { phase := Phase.parked true,
              spawn_count := w.spawn_count + j.children.length,
              deque := j.children.reverse ++ w.deque,
              credit := w.credit + 1 },
          executed := p.executed ++ [j],
          injectedLog := p.injectedLog,
          spawnedLog := p.spawnedLog ++ j.children,
          abortedLog := p.abortedLog }
  | wakeNone (p : PoolState) (i : Nat) (w : WorkerSt)
      (hw : p.workers[i]? = Option.some w)
      (hp : w.phase = Phase.waiting)
      (ht : p.reg.terminate = false)
      (hj : p.reg.injected_jobs = [])
      (hta : 0 < p.reg.threads_at_work) :
      Step p { p with
        workers := p.workers.set i { w with phase := Phase.draining false } }
  | drainPop (p : PoolState) (i : Nat) (w : WorkerSt) (d : Bool)
      (j : Job) (rest : List Job)
      (hw : p.workers[i]? = Option.some w)
      (hp : w.phase = Phase.draining d)
      (hsc : 0 < w.spawn_count)
      (hd : w.deque = j :: rest) :
      Step p
        { reg := { p.reg with threads_at_work := p.reg.threads_at_work + 1 },
          workers := p.workers.set i
            { phase := Phase.draining true,
              spawn_count := w.spawn_count - 1 + j.children.length,
              deque := j.children.reverse ++ rest,
              credit := w.credit + 1 },
          executed := p.executed ++ [j],
          injectedLog := p.injectedLog,
          spawnedLog := p.spawnedLog ++ j.children,
          abortedLog := p.abortedLog }
  | drainSteal (p : PoolState) (i v : Nat) (w wv : WorkerSt) (d : Bool) (j : Job)
      (hne : i ≠ v)
      (hw : p.workers[i]? = Option.some w)
      (hv : p.workers[v]? = Option.some wv)
      (hp : w.phase = Phase.draining d)
      (hfail : popFails w)
      (hj : wv.deque.getLast? = Option.some j) :
      Step p
        { reg := { p.reg with threads_at_work := p.reg.threads_at_work + 1 },
          workers := (p.workers.set v { wv with deque := wv.deque.dropLast }).set i
            { phase := Phase.draining true,
              spawn_count := j.children.length,
              deque := j.children.reverse ++ w.deque,
              credit := w.credit + 1 },
          executed := p.executed ++ [j],
          injectedLog := p.injectedLog,
          spawnedLog := p.spawnedLog ++ j.children,
          abortedLog := p.abortedLog }
  | drainExit (p : PoolState) (i : Nat) (w : WorkerSt) (d : Bool)
      (hw : p.workers[i]? = Option.some w)
      (hp : w.phase = Phase.draining d)
      (hfail : popFails w)
      (hempty : ∀ v wv, v ≠ i → p.workers[v]? = Option.some wv → wv.deque = []) :
      Step p { p with
        workers := p.workers.set i
          { w with phase := Phase.parked d, spawn_count := 0 } }

/-- Reachability from a freshly constructed pool of `n` workers. -/
inductive Reach (n : Nat) : PoolState → Prop
  | init : Reach n (initPool n)
  | step {s s' : PoolState} : Reach n s → Step s s' → Reach n s'

namespace Registry

/-- The entry decrement leaves the terminate flag unchanged. -/
theorem decIf_terminate (r : RegistryState) (wa : Bool) :
    (decIf r wa).terminate = r.terminate := by
  cases wa <;> simp [decIf]

/-- The entry decrement leaves the injected queue unchanged. -/
theorem decIf_injected (r : RegistryState) (wa : Bool) :
    (decIf r wa).injected_jobs = r.injected_jobs := by
  cases wa <;> simp [decIf]

/-- The entry decrement subtracts one exactly when `was_active`. -/
theorem decIf_taw (r : RegistryState) (wa : Bool) :
    (decIf r wa).threads_at_work = r.threads_at_work - (if wa then 1 else 0) := by
  cases wa <;> simp [decIf]

end Registry

/-- Sum of the ghost credits of a worker list. -/
def creditSum (ws : List WorkerSt) : Nat :=
  (ws.map WorkerSt.credit).sum

/-- Multiset of all jobs sitting in the local deques of a worker list. -/
def dequeSum (ws : List WorkerSt) : Multiset Job :=
  (ws.map (fun w => (w.deque : Multiset Job))).sum

/-- An element of a list contributes at most the whole mapped sum. -/
theorem le_sum_map {α : Type _} (f : α → Nat) {l : List α} {x : α}
    (h : x ∈ l) : f x ≤ (l.map f).sum := by
  induction l with
  | nil => cases h
  | cons a t ih =>
      rcases List.mem_cons.1 h with h' | h'
      · subst h'; simp
      · have := ih h'; simp; omega

/-- Updating index `i` of a list changes a mapped sum by swapping the old
element's contribution for the new one's. -/
theorem sum_map_set {α : Type _} {M : Type _} [AddCommMonoid M] (f : α → M)
    (l : List α) (i : Nat) (w w' : α) (h : l[i]? = Option.some w) :
    ((l.set i w').map f).sum + f w = (l.map f).sum + f w' := by
  induction l generalizing i with
  | nil => simp at h
  | cons a t ih =>
      cases i with
      | zero =>
          obtain rfl : a = w := by simpa using h
          simp [List.set]
          abel
      | succ n =>
          have h' : t[n]? = Option.some w := by simpa using h
          simp only [List.set, List.map_cons, List.sum_cons]
          rw [add_assoc, ih n h', ← add_assoc]

/-- Coercing a cons splits off a singleton. -/
theorem coe_cons_ms {α : Type _} (a : α) (l : List α) :
    ((a :: l : List α) : Multiset α) = {a} + ↑l := by
  rw [← Multiset.cons_coe, ← Multiset.singleton_add]

/-- The inductive invariant of the pool model: `threads_at_work` equals
the sum of the workers' unmatched increments; a worker that has executed
a job since its last parking holds at least one unmatched increment; the
spawn counter bounds the local deque depth; a worker parked without
having worked has an empty deque; nothing has been aborted while the
terminate flag is unset; and every job ever injected or spawned is
accounted for exactly once among the executed log, the aborted log, the
injected queue and the local deques. -/
structure PoolInv (p : PoolState) : Prop where
  taw_eq : p.reg.threads_at_work = creditSum p.workers
  credit_pos : ∀ w ∈ p.workers,
    (w.phase = Phase.parked true ∨ w.phase = Phase.draining true) → 1 ≤ w.credit
  deque_le : ∀ w ∈ p.workers, w.deque.length ≤ w.spawn_count
  parked_false_empty : ∀ w ∈ p.workers, w.phase = Phase.parked false → w.deque = []
  abort_empty : p.reg.terminate = false → p.abortedLog = []
  conserve :
    (↑p.executed + ↑p.abortedLog + ↑p.reg.injected_jobs + dequeSum p.workers : Multiset Job)
      = ↑p.injectedLog + ↑p.spawnedLog

/-- The invariant holds at pool construction. -/
theorem poolInv_init (n : Nat) : PoolInv (initPool n) := by
  refine ⟨?_, ?_, ?_, ?_, ?_, ?_⟩
  · simp [initPool, creditSum, initWorker, List.map_replicate]
  · intro w hw hph
    have := List.eq_of_mem_replicate hw
    subst this
    simp [initWorker] at hph
  · intro w hw
    have := List.eq_of_mem_replicate hw
    subst this
    simp [initWorker]
  · intro w hw _
    have := List.eq_of_mem_replicate hw
    subst this
    simp [initWorker]
  · intro _; rfl
  · simp [initPool, dequeSum, initWorker, List.map_replicate]

/-- Every pool step preserves the invariant. -/
theorem poolInv_step {p q : PoolState} (hs : Step p q) (hi : PoolInv p) : PoolInv q := by
  cases hs with
  | inject jobs h =>
      refine ⟨hi.taw_eq, hi.credit_pos, hi.deque_le, hi.parked_false_empty, ?_, ?_⟩
      · intro _; exact hi.abort_empty h
      · dsimp only
        refine Multiset.ext.2 fun a => ?_
        have h1 := congrArg (Multiset.count a) hi.conserve
        simp only [Multiset.coe_count, List.count_append, Multiset.count_add] at h1 ⊢
        omega
  | termCall =>
      refine ⟨hi.taw_eq, hi.credit_pos, hi.deque_le, hi.parked_false_empty, ?_, ?_⟩
      · intro ht; simp at ht
      · dsimp only
        refine Multiset.ext.2 fun a => ?_
        have h1 := congrArg (Multiset.count a) hi.conserve
        simp only [Multiset.coe_count, List.count_append, List.count_nil,
          Multiset.count_add] at h1 ⊢
        omega
  | waitTerminate i w wa hw hp ht =>
      have hmem := List.getElem?_mem hw
      refine ⟨?_, ?_, ?_, ?_, ?_, ?_⟩
      · dsimp only
        rw [Registry.decIf_taw]
        have hcs := sum_map_set WorkerSt.credit p.workers i w
          { w with phase := Phase.done, credit := w.credit - (if wa then 1 else 0) } hw
        have hle := le_sum_map WorkerSt.credit hmem
        have htaw := hi.taw_eq
        simp only [creditSum] at htaw ⊢
        cases wa
        · simp at hcs ⊢; omega
        · have hc1 : 1 ≤ w.credit := hi.credit_pos w hmem (Or.inl hp)
          simp at hcs ⊢; omega
      · intro w₂ hm hph
        rcases List.mem_or_eq_of_mem_set hm with h2 | h2
        · exact hi.credit_pos w₂ h2 hph
        · subst h2; rcases hph with h3 | h3 <;> simp at h3
      · intro w₂ hm
        rcases List.mem_or_eq_of_mem_set hm with h2 | h2
        · exact hi.deque_le w₂ h2
        · subst h2; simpa using hi.deque_le w hmem
      · intro w₂ hm hph
        rcases List.mem_or_eq_of_mem_set hm with h2 | h2
        · exact hi.parked_false_empty w₂ h2 hph
        · subst h2; simp at hph
      · intro h4
        rw [Registry.decIf_terminate, ht] at h4
        simp at h4
      · dsimp only
        have hds := sum_map_set (fun x => (x.deque : Multiset Job)) p.workers i w
          { w with phase := Phase.done, credit := w.credit - (if wa then 1 else 0) } hw
        refine Multiset.ext.2 fun a => ?_
        have h1 := congrArg (Multiset.count a) hi.conserve
        have h2 := congrArg (Multiset.count a) hds
        simp only [dequeSum, Registry.decIf_injected, Multiset.coe_count,
          List.count_append, Multiset.count_add] at h1 h2 ⊢
        omega
  | waitJob i w wa j rest hw hp ht hj =>
      have hmem := List.getElem?_mem hw
      refine ⟨?_, ?_, ?_, ?_, ?_, ?_⟩
      · dsimp only
        rw [Registry.decIf_taw]
        have hcs := sum_map_set WorkerSt.credit p.workers i w
          { phase := Phase.parked true,
            spawn_count := w.spawn_count + j.children.length,
            deque := j.children.reverse ++ w.deque,
            credit := w.credit - (if wa then 1 else 0) + 1 } hw
        have hle := le_sum_map WorkerSt.credit hmem
        have htaw := hi.taw_eq
        simp only [creditSum] at htaw ⊢
        cases wa
        · simp at hcs ⊢; omega
        · have hc1 : 1 ≤ w.credit := hi.credit_pos w hmem (Or.inl hp)
          simp at hcs ⊢; omega
      · intro w₂ hm hph
        rcases List.mem_or_eq_of_mem_set hm with h2 | h2
        · exact hi.credit_pos w₂ h2 hph
        · subst h2; cases wa <;> simp
      · intro w₂ hm
        rcases List.mem_or_eq_of_mem_set hm with h2 | h2
        · exact hi.deque_le w₂ h2
        · subst h2
          have := hi.deque_le w hmem
          simp [List.length_append]
          omega
      · intro w₂ hm hph
        rcases List.mem_or_eq_of_mem_set hm with h2 | h2
        · exact hi.parked_false_empty w₂ h2 hph
        · subst h2; simp at hph
      · intro _; exact hi.abort_empty ht
      · dsimp only
        have hds := sum_map_set (fun x => (x.deque : Multiset Job)) p.workers i w
          { phase := Phase.parked true,
            spawn_count := w.spawn_count + j.children.length,
            deque := j.children.reverse ++ w.deque,
            credit := w.credit - (if wa then 1 else 0) + 1 } hw
        refine Multiset.ext.2 fun a => ?_
        have h1 := congrArg (Multiset.count a) hi.conserve
        have h2 := congrArg (Multiset.count a) hds
        rw [hj] at h1
        simp only [dequeSum, Multiset.coe_count, List.count_append, List.count_reverse,
          List.count_cons, List.count_nil, Multiset.count_add] at h1 h2 ⊢
        by_cases ha : j = a <;> simp [ha] at h1 h2 ⊢ <;> omega
  | waitNone i w wa hw hp ht hj hta =>
      have hmem := List.getElem?_mem hw
      refine ⟨?_, ?_, ?_, ?_, ?_, ?_⟩
      · dsimp only
        rw [Registry.decIf_taw]
        have hcs := sum_map_set WorkerSt.credit p.workers i w
          { w with phase := Phase.draining false,
                   credit := w.credit - (if wa then 1 else 0) } hw
        have hle := le_sum_map WorkerSt.credit hmem
        have htaw := hi.taw_eq
        simp only [creditSum] at htaw ⊢
        cases wa
        · simp at hcs ⊢; omega
        · have hc1 : 1 ≤ w.credit := hi.credit_pos w hmem (Or.inl hp)
          simp at hcs ⊢; omega
      · intro w₂ hm hph
        rcases List.mem_or_eq_of_mem_set hm with h2 | h2
        · exact hi.credit_pos w₂ h2 hph
        · subst h2; rcases hph with h3 | h3 <;> simp at h3
      · intro w₂ hm
        rcases List.mem_or_eq_of_mem_set hm with h2 | h2
        · exact hi.deque_le w₂ h2
        · subst h2; simpa using hi.deque_le w hmem
      · intro w₂ hm hph
        rcases List.mem_or_eq_of_mem_set hm with h2 | h2
        · exact hi.parked_false_empty w₂ h2 hph
        · subst h2; simp at hph
      · intro h4
        apply hi.abort_empty
        rwa [Registry.decIf_terminate] at h4
      · dsimp only
        have hds := sum_map_set (fun x => (x.deque : Multiset Job)) p.workers i w
          { w with phase := Phase.draining false,
                   credit := w.credit - (if wa then 1 else 0) } hw
        refine Multiset.ext.2 fun a => ?_
        have h1 := congrArg (Multiset.count a) hi.conserve
        have h2 := congrArg (Multiset.count a) hds
        simp only [dequeSum, Registry.decIf_injected, Multiset.coe_count,
          List.count_append, Multiset.count_add] at h1 h2 ⊢
        omega
  | waitSleep i w wa hw hp ht hj hta =>
      have hmem := List.getElem?_mem hw
      refine ⟨?_, ?_, ?_, ?_, ?_, ?_⟩
      · dsimp only
        rw [Registry.decIf_taw]
        have hcs := sum_map_set WorkerSt.credit p.workers i w
          { w with phase := Phase.waiting,
                   credit := w.credit - (if wa then 1 else 0) } hw
        have hle := le_sum_map WorkerSt.credit hmem
        have htaw := hi.taw_eq
        simp only [creditSum] at htaw ⊢
        cases wa
        · simp at hcs ⊢; omega
        · have hc1 : 1 ≤ w.credit := hi.credit_pos w hmem (Or.inl hp)
          simp at hcs ⊢; omega
      · intro w₂ hm hph
        rcases List.mem_or_eq_of_mem_set hm with h2 | h2
        · exact hi.credit_pos w₂ h2 hph
        · subst h2; rcases hph with h3 | h3 <;> simp at h3
      · intro w₂ hm
        rcases List.mem_or_eq_of_mem_set hm with h2 | h2
        · exact hi.deque_le w₂ h2
        · subst h2; simpa using hi.deque_le w hmem
      · intro w₂ hm hph
        rcases List.mem_or_eq_of_mem_set hm with h2 | h2
        · exact hi.parked_false_empty w₂ h2 hph
        · subst h2; simp at hph
      · intro h4
        apply hi.abort_empty
        rwa [Registry.decIf_terminate] at h4
      · dsimp only
        have hds := sum_map_set (fun x => (x.deque : Multiset Job)) p.workers i w
          { w with phase := Phase.waiting,
                   credit := w.credit - (if wa then 1 else 0) } hw
        refine Multiset.ext.2 fun a => ?_
        have h1 := congrArg (Multiset.count a) hi.conserve
        have h2 := congrArg (Multiset.count a) hds
        simp only [dequeSum, Registry.decIf_injected, Multiset.coe_count,
          List.count_append, Multiset.count_add] at h1 h2 ⊢
        omega
  | wakeTerminate i w hw hp ht =>
      have hmem := List.getElem?_mem hw
      refine ⟨?_, ?_, ?_, ?_, ?_, ?_⟩
      · dsimp only
        have hcs := sum_map_set WorkerSt.credit p.workers i w
          { w with phase := Phase.done } hw
        have htaw := hi.taw_eq
        simp only [creditSum] at htaw ⊢
        simp at hcs ⊢
        omega
      · intro w₂ hm hph
        rcases List.mem_or_eq_of_mem_set hm with h2 | h2
        · exact hi.credit_pos w₂ h2 hph
        · subst h2; rcases hph with h3 | h3 <;> simp at h3
      · intro w₂ hm
        rcases List.mem_or_eq_of_mem_set hm with h2 | h2
        · exact hi.deque_le w₂ h2
        · subst h2; simpa using hi.deque_le w hmem
      · intro w₂ hm hph
        rcases List.mem_or_eq_of_mem_set hm with h2 | h2
        · exact hi.parked_false_empty w₂ h2 hph
        · subst h2; simp at hph
      · intro h4; exact hi.abort_empty h4
      · dsimp only
        have hds := sum_map_set (fun x => (x.deque : Multiset Job)) p.workers i w
          { w with phase := Phase.done } hw
        refine Multiset.ext.2 fun a => ?_
        have h1 := congrArg (Multiset.count a) hi.conserve
        have h2 := congrArg (Multiset.count a) hds
        simp only [dequeSum, Multiset.coe_count, List.count_append,
          Multiset.count_add] at h1 h2 ⊢
        omega
  | wakeJob i w j rest hw hp ht hj =>
      have hmem := List.getElem?_mem hw
      refine ⟨?_, ?_, ?_, ?_, ?_, ?_⟩
      · dsimp only
        have hcs := sum_map_set WorkerSt.credit p.workers i w
          { phase := Phase.parked true,
            spawn_count := w.spawn_count + j.children.length,
            deque := j.children.reverse ++ w.deque,
            credit := w.credit + 1 } hw
        have htaw := hi.taw_eq
        simp only [creditSum] at htaw ⊢
        simp at hcs ⊢
        omega
      · intro w₂ hm hph
        rcases List.mem_or_eq_of_mem_set hm with h2 | h2
        · exact hi.credit_pos w₂ h2 hph
        · subst h2; simp
      · intro w₂ hm
        rcases List.mem_or_eq_of_mem_set hm with h2 | h2
        · exact hi.deque_le w₂ h2
        · subst h2
          have := hi.deque_le w hmem
          simp [List.length_append]
          omega
      · intro w₂ hm hph
        rcases List.mem_or_eq_of_mem_set hm with h2 | h2
        · exact hi.parked_false_empty w₂ h2 hph
        · subst h2; simp at hph
      · intro _; exact hi.abort_empty ht
      · dsimp only
        have hds := sum_map_set (fun x => (x.deque : Multiset Job)) p.workers i w
          { phase := Phase.parked true,
            spawn_count := w.spawn_count + j.children.length,
            deque := j.children.reverse ++ w.deque,
            credit := w.credit + 1 } hw
        refine Multiset.ext.2 fun a => ?_
        have h1 := congrArg (Multiset.count a) hi.conserve
        have h2 := congrArg (Multiset.count a) hds
        rw [hj] at h1
        simp only [dequeSum, Multiset.coe_count, List.count_append, List.count_reverse,
          List.count_cons, List.count_nil, Multiset.count_add] at h1 h2 ⊢
        by_cases ha : j = a <;> simp [ha] at h1 h2 ⊢ <;> omega
  | wakeNone i w hw hp ht hj hta =>
      have hmem := List.getElem?_mem hw
      refine ⟨?_, ?_, ?_, ?_, ?_, ?_⟩
      · dsimp only
        have hcs := sum_map_set WorkerSt.credit p.workers i w
          { w with phase := Phase.draining false } hw
        have htaw := hi.taw_eq
        simp only [creditSum] at htaw ⊢
        simp at hcs ⊢
        omega
      · intro w₂ hm hph
        rcases List.mem_or_eq_of_mem_set hm with h2 | h2
        · exact hi.credit_pos w₂ h2 hph
        · subst h2; rcases hph with h3 | h3 <;> simp at h3
      · intro w₂ hm
        rcases List.mem_or_eq_of_mem_set hm with h2 | h2
        · exact hi.deque_le w₂ h2
        · subst h2; simpa using hi.deque_le w hmem
      · intro w₂ hm hph
        rcases List.mem_or_eq_of_mem_set hm with h2 | h2
        · exact hi.parked_false_empty w₂ h2 hph
        · subst h2; simp at hph
      · intro h4; exact hi.abort_empty h4
      · dsimp only
        have hds := sum_map_set (fun x => (x.deque : Multiset Job)) p.workers i w
          { w with phase := Phase.draining false } hw
        refine Multiset.ext.2 fun a => ?_
        have h1 := congrArg (Multiset.count a) hi.conserve
        have h2 := congrArg (Multiset.count a) hds
        simp only [dequeSum, Multiset.coe_count, List.count_append,
          Multiset.count_add] at h1 h2 ⊢
        omega
  | drainPop i w d j rest hw hp hsc hd =>
      have hmem := List.getElem?_mem hw
      refine ⟨?_, ?_, ?_, ?_, ?_, ?_⟩
      · dsimp only
        have hcs := sum_map_set WorkerSt.credit p.workers i w
          { phase := Phase.draining true,
            spawn_count := w.spawn_count - 1 + j.children.length,
            deque := j.children.reverse ++ rest,
            credit := w.credit + 1 } hw
        have htaw := hi.taw_eq
        simp only [creditSum] at htaw ⊢
        simp at hcs ⊢
        omega
      · intro w₂ hm hph
        rcases List.mem_or_eq_of_mem_set hm with h2 | h2
        · exact hi.credit_pos w₂ h2 hph
        · subst h2; simp
      · intro w₂ hm
        rcases List.mem_or_eq_of_mem_set hm with h2 | h2
        · exact hi.deque_le w₂ h2
        · subst h2
          have hlen := hi.deque_le w hmem
          rw [hd] at hlen
          simp [List.length_append] at hlen ⊢
          omega
      · intro w₂ hm hph
        rcases List.mem_or_eq_of_mem_set hm with h2 | h2
        · exact hi.parked_false_empty w₂ h2 hph
        · subst h2; simp at hph
      · intro h4; exact hi.abort_empty h4
      · dsimp only
        have hds := sum_map_set (fun x => (x.deque : Multiset Job)) p.workers i w
          { phase := Phase.draining true,
            spawn_count := w.spawn_count - 1 + j.children.length,
            deque := j.children.reverse ++ rest,
            credit := w.credit + 1 } hw
        dsimp only at hds
        rw [hd] at hds
        refine Multiset.ext.2 fun a => ?_
        have h1 := congrArg (Multiset.count a) hi.conserve
        have h2 := congrArg (Multiset.count a) hds
        simp only [dequeSum, Multiset.coe_count, List.count_append, List.count_reverse,
          List.count_cons, List.count_nil, Multiset.count_add] at h1 h2 ⊢
        by_cases ha : j = a <;> simp [ha] at h1 h2 ⊢ <;> omega
  | drainSteal i v w wv d j hne hw hv hp hfail hj =>
      have hmem := List.getElem?_mem hw
      have hmemv := List.getElem?_mem hv
      have hw2 : (p.workers.set v { wv with deque := wv.deque.dropLast })[i]?
          = Option.some w := by
        rw [List.getElem?_set_ne (Ne.symm hne)]; exact hw
      have hlen0 : w.deque.length = 0 := by
        rcases hfail with h2 | h2
        · have := hi.deque_le w hmem; omega
        · simp [h2]
      refine ⟨?_, ?_, ?_, ?_, ?_, ?_⟩
      · dsimp only
        have hcs1 := sum_map_set WorkerSt.credit p.workers v wv
          { wv with deque := wv.deque.dropLast } hv
        have hcs2 := sum_map_set WorkerSt.credit
          (p.workers.set v { wv with deque := wv.deque.dropLast }) i w
          { phase := Phase.draining true,
            spawn_count := j.children.length,
            deque := j.children.reverse ++ w.deque,
            credit := w.credit + 1 } hw2
        have htaw := hi.taw_eq
        simp only [creditSum] at htaw ⊢
        simp at hcs1 hcs2 ⊢
        omega
      · intro w₂ hm hph
        rcases List.mem_or_eq_of_mem_set hm with h2 | h2
        · rcases List.mem_or_eq_of_mem_set h2 with h3 | h3
          · exact hi.credit_pos w₂ h3 hph
          · subst h3
            exact hi.credit_pos wv hmemv (by simpa using hph)
        · subst h2; simp
      · intro w₂ hm
        rcases List.mem_or_eq_of_mem_set hm with h2 | h2
        · rcases List.mem_or_eq_of_mem_set h2 with h3 | h3
          · exact hi.deque_le w₂ h3
          · subst h3
            have := hi.deque_le wv hmemv
            simp [List.length_dropLast]
            omega
        · subst h2
          simp [List.length_append, hlen0]
      · intro w₂ hm hph
        rcases List.mem_or_eq_of_mem_set hm with h2 | h2
        · rcases List.mem_or_eq_of_mem_set h2 with h3 | h3
          · exact hi.parked_false_empty w₂ h3 hph
          · subst h3
            have := hi.parked_false_empty wv hmemv (by simpa using hph)
            simp [this]
        · subst h2; simp at hph
      · intro h4; exact hi.abort_empty h4
      · dsimp only
        have hds1 := sum_map_set (fun x => (x.deque : Multiset Job)) p.workers v wv
          { wv with deque := wv.deque.dropLast } hv
        have hds2 := sum_map_set (fun x => (x.deque : Multiset Job))
          (p.workers.set v { wv with deque := wv.deque.dropLast }) i w
          { phase := Phase.draining true,
            spawn_count := j.children.length,
            deque := j.children.reverse ++ w.deque,
            credit := w.credit + 1 } hw2
        have hsplit : wv.deque.dropLast ++ [j] = wv.deque :=
          List.dropLast_append_getLast? j hj
        refine Multiset.ext.2 fun a => ?_
        have h1 := congrArg (Multiset.count a) hi.conserve
        have h2 := congrArg (Multiset.count a) hds1
        have h3 := congrArg (Multiset.count a) hds2
        have h4 := congrArg (fun l : List Job => Multiset.count a (↑l : Multiset Job)) hsplit
        simp only [dequeSum, Multiset.coe_count, List.count_append, List.count_reverse,
          List.count_cons, List.count_nil, Multiset.count_add] at h1 h2 h3 h4 ⊢
        by_cases ha : j = a <;> simp [ha] at h1 h2 h3 h4 ⊢ <;> omega
  | drainExit i w d hw hp hfail hempty =>
      have hmem := List.getElem?_mem hw
      have hlen0 : w.deque.length = 0 := by
        rcases hfail with h2 | h2
        · have := hi.deque_le w hmem; omega
        · simp [h2]
      refine ⟨?_, ?_, ?_, ?_, ?_, ?_⟩
      · dsimp only
        have hcs := sum_map_set WorkerSt.credit p.workers i w
          { w with phase := Phase.parked d, spawn_count := 0 } hw
        have htaw := hi.taw_eq
        simp only [creditSum] at htaw ⊢
        simp at hcs ⊢
        omega
      · intro w₂ hm hph
        rcases List.mem_or_eq_of_mem_set hm with h2 | h2
        · exact hi.credit_pos w₂ h2 hph
        · subst h2
          rcases hph with h3 | h3
          · have hd3 : d = true := by
              have h5 : Phase.parked d = Phase.parked true := by simpa using h3
              injection h5
            subst hd3
            exact hi.credit_pos w hmem (Or.inr hp)
          · simp at h3
      · intro w₂ hm
        rcases List.mem_or_eq_of_mem_set hm with h2 | h2
        · exact hi.deque_le w₂ h2
        · subst h2; simpa using hlen0
      · intro w₂ hm hph
        rcases List.mem_or_eq_of_mem_set hm with h2 | h2
        · exact hi.parked_false_empty w₂ h2 hph
        · subst h2
          have h5 := List.length_eq_zero.mp hlen0
          simpa using h5
      · intro h4; exact hi.abort_empty h4
      · dsimp only
        have hds := sum_map_set (fun x => (x.deque : Multiset Job)) p.workers i w
          { w with phase := Phase.parked d, spawn_count := 0 } hw
        refine Multiset.ext.2 fun a => ?_
        have h1 := congrArg (Multiset.count a) hi.conserve
        have h2 := congrArg (Multiset.count a) hds
        simp only [dequeSum, Multiset.coe_count, List.count_append,
          Multiset.count_add] at h1 h2 ⊢
        omega

/-- The invariant holds at every reachable pool state. -/
theorem poolInv_reach {n : Nat} {s : PoolState} (h : Reach n s) : PoolInv s := by
  induction h with
  | init => exact poolInv_init n
  | step _ hs ih => exact poolInv_step hs ih

namespace WorkerThread

/-- A failed `pop` always leaves the spawn counter at zero: either it was
zero already, or the empty-deque branch reset it. -/
theorem pop_none_spawn {w : WorkerThread} {w' : WorkerThread}
    (hp : pop w = (Option.none, w')) : w'.spawn_count = 0 := by
  unfold pop at hp
  by_cases h : 0 < w.spawn_count
  · rw [if_pos h] at hp
    cases hd : w.deque with
    | nil =>
        rw [hd] at hp
        have h2 := congrArg Prod.snd hp
        simp at h2
        rw [← h2]
    | cons a t => rw [hd] at hp; simp at hp
  · rw [if_neg h] at hp
    have h2 := congrArg Prod.snd hp
    simp at h2
    rw [← h2]
    omega

end WorkerThread

/-- Claim C2: `WorkerThread::pop` behaves exactly as specified: with a
positive spawn counter and a non-empty deque it pops the owner end and
decrements the counter; with a positive counter but an empty deque it
resets the counter to 0 and returns `none`; with a zero counter it
returns `none` and leaves the whole worker state (deque included)
unchanged. -/
theorem c2_pop_spec (w : WorkerThread) :
    (0 < w.spawn_count → ∀ j rest, w.deque = j :: rest →
      WorkerThread.pop w
        = (Option.some j, { spawn_count := w.spawn_count - 1, deque := rest })) ∧
    (0 < w.spawn_count → w.deque = [] →
      WorkerThread.pop w = (Option.none, { w with spawn_count := 0 })) ∧
    (w.spawn_count = 0 → WorkerThread.pop w = (Option.none, w)) := by
  refine ⟨?_, ?_, ?_⟩
  · intro h j rest hd
    unfold WorkerThread.pop
    rw [if_pos h, hd]
  · intro h hd
    unfold WorkerThread.pop
    rw [if_pos h, hd]
  · intro h
    unfold WorkerThread.pop
    rw [if_neg (by omega)]

/-- Witness for C2 at a concrete worker state. -/
theorem c2_pop_spec_witness :
    WorkerThread.pop ⟨2, [Job.mk []]⟩ = (Option.some (Job.mk []), ⟨1, []⟩) :=
  (c2_pop_spec ⟨2, [Job.mk []]⟩).1 (by decide) (Job.mk []) [] rfl

/-- Claim C10: on a worker with no concurrent thieves, `push` followed
immediately by `pop` returns the pushed job and restores the worker
state exactly (same spawn counter, same remaining deque). -/
theorem c10_push_pop (w : WorkerThread) (j : Job) :
    WorkerThread.pop (WorkerThread.push j w) = (Option.some j, w) := by
  unfold WorkerThread.pop WorkerThread.push
  simp

/-- Claim C7: after `pop_spawned_jobs(start_count)` returns, either the
spawn counter is at most `start_count` or the local deque is empty. -/
theorem c7_pop_spawned_jobs_balance (w : WorkerThread) (start_count : Nat) :
    (WorkerThread.pop_spawned_jobs w start_count).1.spawn_count ≤ start_count ∨
    (WorkerThread.pop_spawned_jobs w start_count).1.deque = [] := by
  generalize hn : Job.sizeList w.deque = n
  induction n using Nat.strong_induction_on generalizing w with
  | _ n ih =>
      rw [WorkerThread.pop_spawned_jobs]
      by_cases h : start_count < w.spawn_count
      · rw [if_pos h]
        cases hp : WorkerThread.pop w with
        | mk o w' =>
            cases o with
            | some j =>
                simp only []
                have hs := WorkerThread.executeJob_measure hp
                exact ih (Job.sizeList (WorkerThread.executeJob j w').deque)
                  (by omega) (WorkerThread.executeJob j w') rfl
            | none =>
                dsimp only
                left
                have := WorkerThread.pop_none_spawn hp
                omega
      · rw [if_neg h]
        left
        dsimp only
        omega

/-- Claim C5: `Registry::inject` fails (assertion) exactly when the
terminate flag is set, leaving the state untouched, and otherwise
appends the given jobs at the back of the queue in order and notifies
all waiters. -/
theorem c5_inject_spec (jobs : List Job) (r : RegistryState) :
    (Registry.inject jobs r = Option.none ↔ r.terminate = true) ∧
    (r.terminate = false →
      Registry.inject jobs r
        = Option.some ({ r with injected_jobs := r.injected_jobs ++ jobs }, true)) := by
  constructor
  · unfold Registry.inject
    by_cases h : r.terminate <;> simp [h]
  · intro h
    unfold Registry.inject
    rw [h]
    simp

/-- Witness for C5 at a concrete registry state. -/
theorem c5_inject_spec_witness :
    Registry.inject [Job.mk []] ⟨false, 0, []⟩
      = Option.some (⟨false, 0, [Job.mk []]⟩, true) :=
  (c5_inject_spec [Job.mk []] ⟨false, 0, []⟩).2 rfl

namespace Registry

/-- One pass of the wait loop never changes the terminate flag. -/
theorem waitCheck_terminate {r : RegistryState} {wk : Work} {r' : RegistryState} {b : Bool}
    (h : waitCheck r = Option.some (wk, r', b)) : r'.terminate = r.terminate := by
  unfold waitCheck at h
  split at h
  · simp at h
    rw [← h.2.1]
  · split at h
    · simp at h
      rw [← h.2.1]
    · split at h
      · simp at h
        rw [← h.2.1]
      · simp at h

end Registry

/-- Claim C3: `wait_for_work` first decrements `threads_at_work` when
`was_active`, then checks, in this priority order: terminate flag,
injected queue (popping the front, incrementing the counter and
notifying all — so injected jobs beat the spin-up path), spin-up when
`threads_at_work > 0`, and otherwise waits on the condition variable
(result `none`, re-checked on a later state). -/
theorem c3_wait_for_work_priority (r : RegistryState) (wa : Bool) :
    ((Registry.decIf r wa).threads_at_work
        = r.threads_at_work - (if wa then 1 else 0)) ∧
    ((Registry.decIf r wa).terminate = true →
      Registry.wait_for_work r wa
        = Option.some (Work.terminate, Registry.decIf r wa, false)) ∧
    (∀ j rest, (Registry.decIf r wa).terminate = false →
      (Registry.decIf r wa).injected_jobs = j :: rest →
      Registry.wait_for_work r wa
        = Option.some (Work.job j,
            { terminate := false,
              threads_at_work := (Registry.decIf r wa).threads_at_work + 1,
              injected_jobs := rest }, true)) ∧
    ((Registry.decIf r wa).terminate = false →
      (Registry.decIf r wa).injected_jobs = [] →
      0 < (Registry.decIf r wa).threads_at_work →
      Registry.wait_for_work r wa
        = Option.some (Work.none, Registry.decIf r wa, false)) ∧
    ((Registry.decIf r wa).terminate = false →
      (Registry.decIf r wa).injected_jobs = [] →
      (Registry.decIf r wa).threads_at_work = 0 →
      Registry.wait_for_work r wa = Option.none) := by
  refine ⟨Registry.decIf_taw r wa, ?_, ?_, ?_, ?_⟩
  · intro ht
    unfold Registry.wait_for_work Registry.waitCheck
    rw [ht]
    simp
  · intro j rest ht hj
    unfold Registry.wait_for_work Registry.waitCheck
    rw [ht, hj]
    simp
  · intro ht hj hta
    unfold Registry.wait_for_work Registry.waitCheck
    rw [ht, hj, if_pos hta]
    simp
  · intro ht hj hta
    unfold Registry.wait_for_work Registry.waitCheck
    rw [ht, hj, hta]
    simp

/-- Witness for C3: a concrete call takes the injected-job branch. -/
theorem c3_wait_for_work_priority_witness :
    Registry.wait_for_work ⟨false, 5, [Job.mk []]⟩ true
      = Option.some (Work.job (Job.mk []), ⟨false, 5, []⟩, true) :=
  (c3_wait_for_work_priority ⟨false, 5, [Job.mk []]⟩ true).2.2.1 (Job.mk []) [] rfl rfl

/-- Claim C4: `terminate()` sets the flag, removes every queued injected
job, hands exactly those jobs (in order) to `execute(Abort)` — and to
nothing else — leaves the queue empty and notifies all; and no registry
operation (nor any pool step) ever resets the flag to false. -/
theorem c4_terminate_spec :
    (∀ r : RegistryState,
      Registry.terminate r
        = ({ terminate := true, threads_at_work := r.threads_at_work,
             injected_jobs := [] }, r.injected_jobs, true)) ∧
    (∀ r : RegistryState, (Registry.start_working r).1.terminate = r.terminate) ∧
    (∀ jobs r r' b, Registry.inject jobs r = Option.some (r', b) →
      r'.terminate = r.terminate) ∧
    (∀ r wa wk r' b, Registry.wait_for_work r wa = Option.some (wk, r', b) →
      r'.terminate = r.terminate) ∧
    (∀ r : RegistryState, (Registry.terminate r).1.terminate = true) ∧
    (∀ p q : PoolState, Step p q → p.reg.terminate = true → q.reg.terminate = true) := by
  refine ⟨fun r => rfl, fun r => rfl, ?_, ?_, fun r => rfl, ?_⟩
  · intro jobs r r' b h
    unfold Registry.inject at h
    split at h
    · simp at h
    · simp at h
      rw [← h.1]
  · intro r wa wk r' b h
    have h2 := Registry.waitCheck_terminate h
    rw [h2, Registry.decIf_terminate]
  · intro p q hs ht
    cases hs <;> simp_all [Registry.decIf_terminate]

/-- Witness for C4: terminating a concrete registry aborts exactly the
queued jobs. -/
theorem c4_terminate_spec_witness :
    Registry.terminate ⟨false, 1, [Job.mk [], Job.mk [Job.mk []]]⟩
      = (⟨true, 1, []⟩, [Job.mk [], Job.mk [Job.mk []]], true) :=
  c4_terminate_spec.1 ⟨false, 1, [Job.mk [], Job.mk [Job.mk []]]⟩

/-- Claim C6: `pop_or_steal` first tries the local pop and returns its
job without consulting any stealer; otherwise, with an empty stealer
snapshot it returns `none`; otherwise it sweeps the stealers in the
rotated order `[r % N .. N) ++ [0 .. r % N)` taking the first `Data`,
skipping `Abort` and `Empty` victims, and returns `none` exactly when no
victim answers `Data`. -/
theorem c6_pop_or_steal_spec (w : WorkerThread) (st : List WorkerThread.Stolen) (r : Nat) :
    (∀ j w', WorkerThread.pop w = (Option.some j, w') →
      WorkerThread.pop_or_steal w st r = (Option.some j, w')) ∧
    (∀ w', WorkerThread.pop w = (Option.none, w') → st = [] →
      WorkerThread.pop_or_steal w st r = (Option.none, w')) ∧
    (∀ w', WorkerThread.pop w = (Option.none, w') → st ≠ [] →
      WorkerThread.pop_or_steal w st r
        = ((st.drop (r % st.length) ++ st.take (r % st.length)).findSome?
            WorkerThread.stolenJob, w')) ∧
    (∀ w', WorkerThread.pop w = (Option.none, w') → st ≠ [] →
      ((WorkerThread.pop_or_steal w st r).1 = Option.none ↔
        ∀ x ∈ st, WorkerThread.stolenJob x = Option.none)) := by
  have hsweep : ∀ w', WorkerThread.pop w = (Option.none, w') → st ≠ [] →
      WorkerThread.pop_or_steal w st r
        = ((st.drop (r % st.length) ++ st.take (r % st.length)).findSome?
            WorkerThread.stolenJob, w') := by
    intro w' hp hne
    unfold WorkerThread.pop_or_steal
    rw [hp]
    dsimp only
    rw [if_neg (by simpa [List.isEmpty_iff] using hne)]
  have hmemiff : ∀ x : WorkerThread.Stolen,
      x ∈ st.drop (r % st.length) ++ st.take (r % st.length) ↔ x ∈ st := by
    intro x
    rw [List.mem_append, or_comm, ← List.mem_append, List.take_append_drop]
  refine ⟨?_, ?_, hsweep, ?_⟩
  · intro j w' hp
    unfold WorkerThread.pop_or_steal
    rw [hp]
  · intro w' hp he
    subst he
    unfold WorkerThread.pop_or_steal
    rw [hp]
    simp
  · intro w' hp hne
    rw [hsweep w' hp hne]
    dsimp only
    rw [List.findSome?_eq_none_iff]
    constructor
    · intro hall x hx
      exact hall x ((hmemiff x).2 hx)
    · intro hall x hx
      exact hall x ((hmemiff x).1 hx)

/-- Witness for C6: with an empty local deque, rng draw 1 and three
stealers, the sweep starts at index 1 and takes that victim's `Data`. -/
theorem c6_pop_or_steal_spec_witness :
    WorkerThread.pop_or_steal ⟨0, []⟩
        [WorkerThread.Stolen.abort, WorkerThread.Stolen.data (Job.mk []),
         WorkerThread.Stolen.empty] 1
      = (Option.some (Job.mk []), ⟨0, []⟩) := by
  rw [(c6_pop_or_steal_spec ⟨0, []⟩
    [WorkerThread.Stolen.abort, WorkerThread.Stolen.data (Job.mk []),
     WorkerThread.Stolen.empty] 1).2.2.1 ⟨0, []⟩ rfl (List.cons_ne_nil _ _)]
  rfl

/-- Claim C8: `steal_until` returns only when the latch probe reads
true: if every observed probe is false it is still looping; when it
returns, the observations split as a probe-false prefix followed by the
first true probe, and the performed actions are exactly one
`pop_or_steal_and_execute` per prefix iteration, with one OS-thread
yield for each sweep that obtained no job. -/
theorem c8_steal_until_spec (obs : List StealIter) :
    ((∀ it ∈ obs, it.probe = false) → steal_until obs = Option.none) ∧
    (∀ tr, steal_until obs = Option.some tr →
      ∃ pre it suf, obs = pre ++ it :: suf ∧ (∀ x ∈ pre, x.probe = false) ∧
        it.probe = true ∧ tr = pre.map stealEvOf) := by
  induction obs with
  | nil =>
      constructor
      · intro _; rfl
      · intro tr h; simp [steal_until] at h
  | cons it rest ih =>
      constructor
      · intro hall
        have h1 : it.probe = false := hall it (List.mem_cons_self it rest)
        have h2 := ih.1 (fun x hx => hall x (List.mem_cons_of_mem it hx))
        unfold steal_until
        rw [h1, h2]
        simp
      · intro tr h
        by_cases hp : it.probe
        · unfold steal_until at h
          rw [hp] at h
          simp at h
          subst h
          exact ⟨[], it, rest, rfl, by simp, hp, by simp⟩
        · have hp' : it.probe = false := by simpa using hp
          unfold steal_until at h
          rw [hp'] at h
          simp [Option.map_eq_some'] at h
          rcases h with ⟨tr', h1, h2⟩
          rcases ih.2 tr' h1 with ⟨pre, it2, suf, he, hpre, hit2, htr⟩
          refine ⟨it :: pre, it2, suf, by rw [he]; rfl, ?_, hit2, ?_⟩
          · intro x hx
            rcases List.mem_cons.1 hx with h3 | h3
            · rw [h3]; exact hp'
            · exact hpre x h3
          · rw [← h2, htr]
            rfl

/-- Witness for C8: a single false probe means the loop has not
returned. -/
theorem c8_steal_until_spec_witness :
    steal_until [⟨false, Option.none⟩] = Option.none :=
  (c8_steal_until_spec [⟨false, Option.none⟩]).1
    (fun x hx => by rw [List.mem_singleton.1 hx])

/-- The leaf job of the counterexample trace: executing it pushes
nothing. -/
def jobLeaf : Job := Job.mk []

/-- The injected job of the counterexample trace: executing it pushes
two leaf children onto the executing worker's deque. -/
def jobRoot : Job := Job.mk [jobLeaf, jobLeaf]

/-- A state of a two-worker pool in which `threads_at_work` has climbed
to 3: worker 0 took the injected job (`threads_at_work := 1`) and pushed
its two children; worker 1 spun up on `Work::None` and stole and
executed both children, calling `start_working` once per job
(`threads_at_work := 3`) with no intervening decrement. -/
def overCountPool : PoolState :=
  { reg := { terminate := false, threads_at_work := 3, injected_jobs := [] },
    workers :=
      [ { phase := Phase.parked true, spawn_count := 2, deque := [], credit := 1 },
        { phase := Phase.draining true, spawn_count := 0, deque := [], credit := 2 } ],
    executed := [jobRoot, jobLeaf, jobLeaf],
    injectedLog := [jobRoot],
    spawnedLog := [jobLeaf, jobLeaf],
    abortedLog := [] }

/-- Claim C1 is false on the code: a pool of 2 workers reaches a state
with `threads_at_work = 3 > thread_infos.len()`, because the main loop
calls `start_working` once per drained job but `wait_for_work`
decrements only once per parking cycle. -/
theorem c1_counterexample :
    Reach 2 overCountPool ∧ overCountPool.workers.length = 2 ∧
      2 < overCountPool.reg.threads_at_work := by
  refine ⟨?_, rfl, by decide⟩
  have h0 : Reach 2 (initPool 2) := Reach.init
  have h1 := Reach.step h0 (Step.inject (initPool 2) [jobRoot] rfl)
  have h2 := Reach.step h1
    (Step.waitJob _ 0 initWorker false jobRoot [] rfl rfl rfl rfl)
  have h3 := Reach.step h2
    (Step.waitNone _ 1 initWorker false rfl rfl rfl rfl (by decide))
  have h4 := Reach.step h3
    (Step.drainSteal _ 1 0
      ⟨Phase.draining false, 0, [], 0⟩ ⟨Phase.parked true, 2, [jobLeaf, jobLeaf], 1⟩
      false jobLeaf (by decide) rfl rfl rfl (Or.inl rfl) rfl)
  have h5 := Reach.step h4
    (Step.drainSteal _ 1 0
      ⟨Phase.draining true, 0, [], 1⟩ ⟨Phase.parked true, 2, [jobLeaf], 1⟩
      true jobLeaf (by decide) rfl rfl rfl (Or.inl rfl) rfl)
  exact h5

/-- Claim C1 (amended): `threads_at_work` is a natural number (so never
negative) and at every reachable pool state it equals the sum over all
workers of their unmatched increments (one increment per job obtained,
one decrement per `wait_for_work` entry with `was_active`); it is not
bounded by the number of workers. -/
theorem c1_threads_at_work_eq_credits {n : Nat} {s : PoolState}
    (h : Reach n s) : s.reg.threads_at_work = creditSum s.workers :=
  (poolInv_reach h).taw_eq

/-- Witness for the amended C1 at the initial three-worker pool. -/
theorem c1_threads_at_work_eq_credits_witness :
    (initPool 3).reg.threads_at_work = creditSum (initPool 3).workers :=
  c1_threads_at_work_eq_credits (Reach.init : Reach 3 (initPool 3))

/-- The injected job of the stranded-job trace: executing it pushes one
leaf child onto the executing worker's deque and returns (as an
asynchronous spawn does). -/
def jobRootOne : Job := Job.mk [jobLeaf]

/-- A deadlocked state of a two-worker pool: worker 0 took the one
injected job, pushed its child, re-entered `wait_for_work` with
`was_active = true` (decrementing `threads_at_work` to 0) and went to
sleep on the condition variable; worker 1's wakeups all raced to after
that point, so it re-checked the registry (terminate unset, nothing
injected, `threads_at_work = 0`) and went back to sleep without ever
visiting the deques. The child sits in worker 0's deque; a deque push
notifies no waiter, so no worker will ever wake. -/
def strandedPool : PoolState :=
  { reg := { terminate := false, threads_at_work := 0, injected_jobs := [] },
    workers :=
      [ { phase := Phase.waiting, spawn_count := 1, deque := [jobLeaf], credit := 0 },
        { phase := Phase.waiting, spawn_count := 0, deque := [], credit := 0 } ],
    executed := [jobRootOne],
    injectedLog := [jobRootOne],
    spawnedLog := [jobLeaf],
    abortedLog := [] }

/-- Claim C9 is false on the code: a pool on which terminate is never
set reaches `strandedPool`, where the pushed child job has never been
executed (the executed log misses it), yet every step the pool can still
take — only an external `inject` or `terminate` call — executes nothing
and moves no worker, so the job is returned by pop or steal zero times.
This is the lost-wakeup hazard: `WorkerThread::push` notifies no
condition-variable waiter. -/
theorem c9_counterexample :
    Reach 2 strandedPool ∧
    strandedPool.reg.terminate = false ∧
    (↑strandedPool.executed : Multiset Job)
      ≠ ↑strandedPool.injectedLog + ↑strandedPool.spawnedLog ∧
    (∀ s', Step strandedPool s' →
      s'.executed = strandedPool.executed ∧ s'.workers = strandedPool.workers) := by
  refine ⟨?_, rfl, ?_, ?_⟩
  · have h0 : Reach 2 (initPool 2) := Reach.init
    have h1 := Reach.step h0 (Step.inject (initPool 2) [jobRootOne] rfl)
    have h2 := Reach.step h1
      (Step.waitJob _ 0 initWorker false jobRootOne [] rfl rfl rfl rfl)
    have h3 := Reach.step h2
      (Step.waitSleep _ 0 ⟨Phase.parked true, 1, [jobLeaf], 1⟩ true rfl rfl rfl rfl rfl)
    have h4 := Reach.step h3
      (Step.waitSleep _ 1 initWorker false rfl rfl rfl rfl rfl)
    exact h4
  · intro h
    have hc := congrArg (Multiset.count jobLeaf) h
    simp only [strandedPool, Multiset.coe_count, Multiset.count_add,
      List.count_cons, List.count_nil] at hc
    simp [jobRootOne, jobLeaf] at hc
  · intro s' hs
    cases hs with
    | inject jobs h => exact ⟨rfl, rfl⟩
    | termCall => exact ⟨rfl, rfl⟩
    | waitTerminate i w wa hw hp ht => simp [strandedPool] at ht
    | waitJob i w wa j rest hw hp ht hj => simp [strandedPool] at hj
    | waitNone i w wa hw hp ht hj hta =>
        rw [Registry.decIf_taw] at hta
        simp [strandedPool] at hta
    | waitSleep i w wa hw hp ht hj hta =>
        have hm := List.getElem?_mem hw
        simp [strandedPool] at hm
        rcases hm with h2 | h2 <;> subst h2 <;> simp at hp
    | wakeTerminate i w hw hp ht => simp [strandedPool] at ht
    | wakeJob i w j rest hw hp ht hj => simp [strandedPool] at hj
    | wakeNone i w hw hp ht hj hta => simp [strandedPool] at hta
    | drainPop i w d j rest hw hp hsc hd =>
        have hm := List.getElem?_mem hw
        simp [strandedPool] at hm
        rcases hm with h2 | h2 <;> subst h2 <;> simp at hp
    | drainSteal i v w wv d j hne hw hv hp hfail hj =>
        have hm := List.getElem?_mem hw
        simp [strandedPool] at hm
        rcases hm with h2 | h2 <;> subst h2 <;> simp at hp
    | drainExit i w d hw hp hfail hempty =>
        have hm := List.getElem?_mem hw
        simp [strandedPool] at hm
        rcases hm with h2 | h2 <;> subst h2 <;> simp at hp

/-- Every job injected or spawned is accounted for exactly once, at
every reachable state, among: executed with `Execute`, aborted by
`terminate()`, still queued for injection, or still sitting in a local
deque (so in particular no job is ever executed twice, by pop and steal
both); the executed log never exceeds the injected and spawned jobs as
a multiset. -/
theorem c9_accounting {n : Nat} {s : PoolState} (h : Reach n s) :
    ((↑s.executed + ↑s.abortedLog + ↑s.reg.injected_jobs + dequeSum s.workers
        : Multiset Job) = ↑s.injectedLog + ↑s.spawnedLog) ∧
    ((↑s.executed : Multiset Job) ≤ ↑s.injectedLog + ↑s.spawnedLog) := by
  have hi := poolInv_reach h
  refine ⟨hi.conserve, ?_⟩
  calc (↑s.executed : Multiset Job)
      ≤ ↑s.executed + (↑s.abortedLog + ↑s.reg.injected_jobs + dequeSum s.workers) :=
        Multiset.le_add_right _ _
    _ = ↑s.executed + ↑s.abortedLog + ↑s.reg.injected_jobs + dequeSum s.workers := by
        abel
    _ = ↑s.injectedLog + ↑s.spawnedLog := hi.conserve

/-- Witness for the accounting theorem at the stranded state: the
executed log plus the stranded deque content account for the injected
job and its spawned child. -/
theorem c9_accounting_witness :
    (↑strandedPool.executed + ↑strandedPool.abortedLog
        + ↑strandedPool.reg.injected_jobs + dequeSum strandedPool.workers
      : Multiset Job) = ↑strandedPool.injectedLog + ↑strandedPool.spawnedLog := by
  have h0 : Reach 2 (initPool 2) := Reach.init
  have h1 := Reach.step h0 (Step.inject (initPool 2) [jobRootOne] rfl)
  have h2 := Reach.step h1
    (Step.waitJob _ 0 initWorker false jobRootOne [] rfl rfl rfl rfl)
  have h3 := Reach.step h2
    (Step.waitSleep _ 0 ⟨Phase.parked true, 1, [jobLeaf], 1⟩ true rfl rfl rfl rfl rfl)
  have h4 := Reach.step h3
    (Step.waitSleep _ 1 initWorker false rfl rfl rfl rfl rfl)
  exact (c9_accounting h4).1
